import Mathlib

/-!
# Verification of the pixz parallel encoder pipeline (src/write.c, src/list.c)

A shallow embedding of the core of the pixz writer and lister:
the file-index registration logic (`is_multi_header`, `add_file`),
the reader's tar pull callback and end-of-archive flush
(`tar_read`, `read_thread`), the in-order block writer (`write_blocks`),
the file-index serialization through the `CHUNKSIZE`-buffered streaming
writer (`write_file_index`, `write_file_index_bytes`,
`write_file_index_buf`), the startup buffer-pool allocation, and the
lister's output.

C strings are modelled as `List Char` (NUL-free), byte buffers as
`List Nat` with each element a byte value, machine integers as `Nat`
(all quantities involved are non-negative counters and offsets).
-/

namespace Pixz

/-! ## File-index registration (`src/write.c`: `is_multi_header`, `add_file`) -/

/-- A file-index entry, from `file_index_t` (`pixz.h`): the tar member
pathname (`none` models the `NULL` sentinel) and the byte offset of the
member's header in the raw uncompressed tar stream.  The `next` pointer of
the C struct is modelled by list order. -/
structure file_index_t where
  name : Option (List Char)
  offset : Nat
deriving DecidableEq, Repr

/-- The suffix of `name` after the last `'/'` (the whole of `name` if it
has no `'/'`).  Models the scan loop of `is_multi_header` in `src/write.c`:
`i = strlen(name); while (i != 0 && name[i-1] != '/') --i;` leaving the
suffix `name + i`, i.e. the maximal suffix containing no `'/'`. -/
def suffix_after_last_slash (name : List Char) : List Char :=
  (name.reverse.takeWhile (fun c => c ≠ '/')).reverse

/-- The function `is_multi_header` from `src/write.c`: a pathname is a multi-header
(AppleDouble) fragment when the component after the last slash begins with
`._`; `strncmp(name + i, "._", 2) == 0` holds exactly when the first two
characters of the suffix exist and are `'.'` then `'_'`, i.e. when
`take 2` of the suffix equals `['.', '_']`. -/
def is_multi_header (name : List Char) : Bool :=
  decide ((suffix_after_last_slash name).take 2 = ['.', '_'])

/-- The mutable state that `add_file` reads and writes: the globals
`gMultiHeader`, `gMultiHeaderStart` of `src/write.c` and the chain
`gFileIndex .. gLastFile` (kept in insertion order, appended at the tail,
exactly as `gLastFile->next = f` does). -/
structure AddFileState where
  multiHeader : Bool
  multiHeaderStart : Nat
  chain : List file_index_t
deriving DecidableEq, Repr

/-- The function `add_file(offset, name)` from `src/write.c`.  A non-NULL multi-header
name only records the offset of the first fragment of a run and returns;
any other call appends one entry whose offset is the remembered fragment
offset when a run is pending, the passed offset otherwise. -/
def add_file (offset : Nat) (name : Option (List Char)) (s : AddFileState) :
    AddFileState :=
  if (match name with | some n => is_multi_header n | none => false) then
    { multiHeader := true
      multiHeaderStart := if s.multiHeader then s.multiHeaderStart else offset
      chain := s.chain }
  else
    { multiHeader := false
      multiHeaderStart := s.multiHeaderStart
      chain := s.chain ++
        [{ name := name
           offset := if s.multiHeader then s.multiHeaderStart else offset }] }

/-- A sequence of `add_file` calls, in order. -/
def run_add_files (calls : List (Nat × Option (List Char)))
    (s : AddFileState) : AddFileState :=
  calls.foldl (fun st c => add_file c.1 c.2 st) s

/-- The state at program start: `gMultiHeader = false`,
`gMultiHeaderStart = 0`, empty chain. -/
def initAddFileState : AddFileState :=
  { multiHeader := false, multiHeaderStart := 0, chain := [] }

/-! ### Helper lemmas about `takeWhile` and the final path component -/

theorem takeWhile_append_all {α : Type} (p : α → Bool) (l₁ l₂ : List α)
    (h : ∀ a ∈ l₁, p a) :
    (l₁ ++ l₂).takeWhile p = l₁ ++ l₂.takeWhile p := by
  induction l₁ with
  | nil => simp
  | cons a l ih =>
    simp only [List.mem_cons] at h
    simp only [List.cons_append, List.takeWhile_cons, h a (Or.inl rfl)]
    rw [ih (fun b hb => h b (Or.inr hb))]
    simp

theorem takeWhile_reach_slash (l : List Char)
    (h : '/' ∈ l) :
    ∃ r, l = l.takeWhile (fun c => c ≠ '/') ++ '/' :: r := by
  induction l with
  | nil => cases h
  | cons a l ih =>
    by_cases ha : a = '/'
    · subst ha
      exact ⟨l, by simp [List.takeWhile_cons]⟩
    · have hmem : '/' ∈ l := by
        rcases List.mem_cons.mp h with h1 | h1
        · exact absurd h1.symm ha
        · exact h1
      obtain ⟨r, hr⟩ := ih hmem
      refine ⟨r, ?_⟩
      simp only [List.takeWhile_cons, decide_eq_true_eq]
      rw [if_pos ha]
      simpa using hr

theorem no_slash_in_suffix (name : List Char) :
    '/' ∉ suffix_after_last_slash name := by
  intro hmem
  simp only [suffix_after_last_slash, List.mem_reverse] at hmem
  have := List.mem_takeWhile_imp hmem
  simp at this

/-- Claim C5: `is_multi_header` returns true iff the final path
component of the name — the suffix after the last `'/'`, or the whole
name when it has no `'/'` — begins with the two characters `"._"`. -/
theorem is_multi_header_correct (name : List Char) :
    is_multi_header name = true ↔
      ((∃ pre comp, name = pre ++ '/' :: comp ∧ '/' ∉ comp ∧
          ['.', '_'] <+: comp) ∨
        ('/' ∉ name ∧ ['.', '_'] <+: name)) := by
  have take_iff : ∀ l : List Char, l.take 2 = ['.', '_'] ↔ ['.', '_'] <+: l := by
    intro l
    constructor
    · intro h
      exact h ▸ List.take_prefix 2 l
    · intro h
      have := List.prefix_iff_eq_take.mp h
      simpa using this.symm
  by_cases hs : '/' ∈ name
  · obtain ⟨r, hr⟩ := takeWhile_reach_slash name.reverse (by simpa using hs)
    have hname : name = r.reverse ++ '/' :: suffix_after_last_slash name := by
      conv_lhs => rw [← List.reverse_reverse name, hr]
      simp [suffix_after_last_slash]
    constructor
    · intro h
      left
      refine ⟨r.reverse, suffix_after_last_slash name, hname,
        no_slash_in_suffix name, ?_⟩
      exact (take_iff _).mp (by simpa [is_multi_header] using h)
    · intro h
      rcases h with ⟨pre, comp, hsplit, hns, hpref⟩ | ⟨hno, _⟩
      · have hsuffix : suffix_after_last_slash name = comp := by
          have hrev : name.reverse = comp.reverse ++ '/' :: pre.reverse := by
            rw [hsplit]
            simp
          unfold suffix_after_last_slash
          rw [hrev, takeWhile_append_all _ _ _
            (fun a ha => by
              simp only [decide_eq_true_eq]
              intro hEq
              exact hns (by simpa [hEq] using List.mem_reverse.mp ha))]
          simp [List.takeWhile_cons]
        simp only [is_multi_header, decide_eq_true_eq, hsuffix]
        exact (take_iff comp).mpr hpref
      · exact absurd hs hno
  · have hsuffix : suffix_after_last_slash name = name := by
      unfold suffix_after_last_slash
      rw [List.takeWhile_eq_self_iff.mpr]
      · simp
      · intro x hx
        simp only [decide_eq_true_eq]
        intro hEq
        exact hs (by simpa [hEq] using List.mem_reverse.mp hx)
    constructor
    · intro h
      right
      refine ⟨hs, ?_⟩
      have := (take_iff _).mp (by simpa [is_multi_header] using h)
      rwa [hsuffix] at this
    · intro h
      rcases h with ⟨pre, comp, hsplit, _, _⟩ | ⟨_, hpref⟩
      · exact absurd (by rw [hsplit]; simp) hs
      · simp only [is_multi_header, decide_eq_true_eq, hsuffix]
        exact (take_iff name).mpr hpref

/-- The registrations performed by `read_thread` (`src/write.c`): one
`add_file(header_position, pathname)` per archive entry, then the final
`add_file(gTotalRead, NULL)` after end-of-archive. -/
def read_thread_registrations (calls : List (Nat × List Char)) (T : Nat) :
    AddFileState :=
  add_file T none
    (run_add_files (calls.map fun c => (c.1, some c.2)) initAddFileState)

theorem run_add_files_append (l₁ l₂ : List (Nat × Option (List Char)))
    (s : AddFileState) :
    run_add_files (l₁ ++ l₂) s = run_add_files l₂ (run_add_files l₁ s) := by
  simp [run_add_files, List.foldl_append]

theorem add_file_frag (offset : Nat) (n : List Char) (s : AddFileState)
    (h : is_multi_header n = true) :
    add_file offset (some n) s =
      { multiHeader := true
        multiHeaderStart := if s.multiHeader then s.multiHeaderStart else offset
        chain := s.chain } := by
  simp [add_file, h]

theorem add_file_nonfrag (offset : Nat) (name : Option (List Char))
    (s : AddFileState)
    (h : ∀ n, name = some n → is_multi_header n = false) :
    add_file offset name s =
      { multiHeader := false
        multiHeaderStart := s.multiHeaderStart
        chain := s.chain ++
          [{ name := name
             offset := if s.multiHeader then s.multiHeaderStart else offset }] } := by
  cases name with
  | none => simp [add_file]
  | some n => simp [add_file, h n rfl]

/-- Inside a pending fragment run, further fragments change nothing:
chain and remembered start offset are preserved. -/
theorem run_frags_state (frags : List (Nat × List Char)) (s : AddFileState)
    (hfr : ∀ p ∈ frags, is_multi_header p.2 = true)
    (hmh : s.multiHeader = true) :
    run_add_files (frags.map (fun p => (p.1, some p.2))) s =
      { multiHeader := true
        multiHeaderStart := s.multiHeaderStart
        chain := s.chain } := by
  induction frags generalizing s with
  | nil =>
    cases s
    simp_all [run_add_files]
  | cons p rest ih =>
    simp only [List.mem_cons] at hfr
    simp only [List.map_cons, run_add_files, List.foldl_cons]
    rw [show (List.foldl (fun st c => add_file c.1 c.2 st)
        (add_file p.1 (some p.2) s) (rest.map fun p => (p.1, some p.2)))
      = run_add_files (rest.map fun p => (p.1, some p.2))
          (add_file p.1 (some p.2) s) from rfl]
    rw [add_file_frag p.1 p.2 s (hfr p (Or.inl rfl)), if_pos hmh]
    exact ih _ (fun q hq => hfr q (Or.inr hq)) rfl

/-- Entries are only appended with non-fragment (or `NULL`) names. -/
theorem chain_no_fragment (calls : List (Nat × Option (List Char)))
    (s : AddFileState)
    (hinv : ∀ e ∈ s.chain, ∀ n, e.name = some n → is_multi_header n = false) :
    ∀ e ∈ (run_add_files calls s).chain, ∀ n, e.name = some n →
      is_multi_header n = false := by
  induction calls generalizing s with
  | nil => exact hinv
  | cons c rest ih =>
    simp only [run_add_files, List.foldl_cons]
    refine ih (add_file c.1 c.2 s) ?_
    intro e he n hn
    cases hc2 : c.2 with
    | none =>
      rw [hc2, add_file_nonfrag _ _ _ (fun m hm => by cases hm)] at he
      rcases List.mem_append.mp he with h1 | h1
      · exact hinv e h1 n hn
      · simp only [List.mem_singleton] at h1
        subst h1
        cases hn
    | some m =>
      by_cases hm : is_multi_header m = true
      · rw [hc2, add_file_frag _ _ _ hm] at he
        exact hinv e he n hn
      · rw [hc2, add_file_nonfrag _ _ _
            (fun k hk => by cases hk; simpa using hm)] at he
        rcases List.mem_append.mp he with h1 | h1
        · exact hinv e h1 n hn
        · simp only [List.mem_singleton] at h1
          subst h1
          simp only at hn
          cases hn
          simpa using hm

/-- Claim C1: a maximal run of multi-header fragments followed by a
non-fragment name collapses to exactly one file-index entry carrying the
first fragment's offset and the non-fragment name, and no entry of any
file-index chain built from `initAddFileState` has a multi-header
pathname. -/
theorem add_file_multi_header_collapse
    (s : AddFileState) (hs : s.multiHeader = false)
    (frags : List (Nat × List Char)) (hne : frags ≠ [])
    (hfr : ∀ p ∈ frags, is_multi_header p.2 = true)
    (off : Nat) (nm : List Char) (hnm : is_multi_header nm = false) :
    (run_add_files
        (frags.map (fun p => (p.1, some p.2)) ++ [(off, some nm)]) s).chain
      = s.chain ++ [{ name := some nm, offset := (frags.head hne).1 }]
    ∧ ∀ calls : List (Nat × Option (List Char)),
        ∀ e ∈ (run_add_files calls initAddFileState).chain,
          ∀ n, e.name = some n → is_multi_header n = false := by
  constructor
  · obtain ⟨p, rest, rfl⟩ : ∃ p rest, frags = p :: rest := by
      cases frags with
      | nil => exact absurd rfl hne
      | cons p rest => exact ⟨p, rest, rfl⟩
    rw [run_add_files_append]
    simp only [List.map_cons]
    rw [show run_add_files ((p.1, some p.2) ::
          rest.map (fun p => (p.1, some p.2))) s
        = run_add_files (rest.map (fun p => (p.1, some p.2)))
            (add_file p.1 (some p.2) s) from rfl]
    simp only [List.mem_cons] at hfr
    rw [add_file_frag p.1 p.2 s (hfr p (Or.inl rfl)), if_neg (by simp [hs])]
    rw [run_frags_state rest _ (fun q hq => hfr q (Or.inr hq)) rfl]
    rw [show run_add_files [(off, some nm)] _
        = add_file off (some nm) _ from rfl]
    rw [add_file_nonfrag off (some nm) _ (fun n hn => by cases hn; exact hnm)]
    simp
  · intro calls
    exact chain_no_fragment calls initAddFileState (by simp [initAddFileState])

theorem add_file_multi_header_collapse_witness :
    (run_add_files [(0, some ['.', '_', 'f']), (512, some ['f'])]
        initAddFileState).chain
      = [{ name := some ['f'], offset := 0 }] := by
  have h := add_file_multi_header_collapse initAddFileState rfl
    [(0, ['.', '_', 'f'])] (by decide) (by decide) 512 ['f'] (by decide)
  simpa using h.1

/-- Claim C2 fails on the code: when the last registered pathname is a
multi-header fragment, the sentinel consumes the remembered fragment
offset, not `gTotalRead`.  Registering only `._f` at offset 0 and then
the sentinel with `gTotalRead = 1536` yields a sentinel whose offset is
0, not 1536. -/
theorem sentinel_offset_counterexample :
    (read_thread_registrations [(0, ['.', '_', 'f'])] 1536).chain
      = [{ name := none, offset := 0 }] ∧ (0 : Nat) ≠ 1536 := by
  constructor
  · rfl
  · decide

/-- The flag `multiHeader` after a run of registrations equals the fragment
status of the last registered pathname. -/
theorem multiHeader_eq_last (calls : List (Nat × List Char))
    (s : AddFileState) :
    (run_add_files (calls.map fun c => (c.1, some c.2)) s).multiHeader
      = match calls.getLast? with
        | some c => is_multi_header c.2
        | none => s.multiHeader := by
  induction calls using List.reverseRecOn with
  | nil => simp [run_add_files]
  | append_singleton l c ih =>
    rw [List.map_append, run_add_files_append]
    simp only [List.map_cons, List.map_nil]
    rw [show run_add_files [(c.1, some c.2)] _
        = add_file c.1 (some c.2) _ from rfl]
    by_cases h : is_multi_header c.2 = true
    · rw [add_file_frag _ _ _ h]
      simp [h]
    · rw [add_file_nonfrag _ _ _ (fun n hn => by cases hn; simpa using h)]
      simp only [List.getLast?_concat]
      simp [eq_false_of_ne_true h]

/-- When a fragment run is pending, `multiHeaderStart` is the offset of
the first fragment of the trailing run of fragments. -/
theorem multiHeaderStart_trailing (calls : List (Nat × List Char))
    (hmh : (run_add_files (calls.map fun c => (c.1, some c.2))
        initAddFileState).multiHeader = true) :
    ∃ pre p post, calls = pre ++ p :: post ∧ is_multi_header p.2 = true ∧
      (∀ q ∈ post, is_multi_header q.2 = true) ∧
      (∀ c ∈ pre.getLast?, is_multi_header c.2 = false) ∧
      (run_add_files (calls.map fun c => (c.1, some c.2))
          initAddFileState).multiHeaderStart = p.1 := by
  induction calls using List.reverseRecOn with
  | nil => simp [run_add_files, initAddFileState] at hmh
  | append_singleton l c ih =>
    rw [List.map_append, run_add_files_append] at hmh ⊢
    simp only [List.map_cons, List.map_nil] at hmh ⊢
    rw [show run_add_files [(c.1, some c.2)] _
        = add_file c.1 (some c.2) _ from rfl] at hmh ⊢
    by_cases hc : is_multi_header c.2 = true
    · rw [add_file_frag _ _ _ hc] at hmh ⊢
      by_cases hl : (run_add_files (l.map fun c => (c.1, some c.2))
          initAddFileState).multiHeader = true
      · obtain ⟨pre, p, post, hsplit, hp, hpost, hpre, hstart⟩ := ih hl
        refine ⟨pre, p, post ++ [c], by simp [hsplit], hp, ?_, hpre, ?_⟩
        · intro q hq
          rcases List.mem_append.mp hq with h1 | h1
          · exact hpost q h1
          · simp only [List.mem_singleton] at h1
            subst h1
            exact hc
        · simp [if_pos hl, hstart]
      · refine ⟨l, c, [], rfl, hc, by simp, ?_, ?_⟩
        · intro d hd
          have hml := multiHeader_eq_last l initAddFileState
          rw [Option.mem_def.mp hd] at hml
          rw [hml] at hl
          simpa using hl
        · simp [if_neg hl]
    · rw [add_file_nonfrag _ _ _ (fun n hn => by cases hn; simpa using hc)]
        at hmh
      simp at hmh

/-- All entries of a chain built from `some`-named registrations have
`some` names (no sentinel appears before the final `NULL` call). -/
theorem chain_names_some (calls : List (Nat × List Char)) (s : AddFileState)
    (h : ∀ e ∈ s.chain, e.name.isSome) :
    ∀ e ∈ (run_add_files (calls.map fun c => (c.1, some c.2)) s).chain,
      e.name.isSome := by
  induction calls generalizing s with
  | nil => exact h
  | cons c rest ih =>
    simp only [List.map_cons, run_add_files, List.foldl_cons]
    refine ih (add_file c.1 (some c.2) s) ?_
    intro e he
    by_cases hc : is_multi_header c.2 = true
    · rw [add_file_frag _ _ _ hc] at he
      exact h e he
    · rw [add_file_nonfrag _ _ _ (fun n hn => by cases hn; simpa using hc)]
        at he
      rcases List.mem_append.mp he with h1 | h1
      · exact h e h1
      · simp only [List.mem_singleton] at h1
        subst h1
        rfl

/-- Claim C2, amended: the chain ends in exactly one sentinel entry,
but the sentinel's offset is `gTotalRead` only when the last registered
pathname was not a multi-header fragment; when it was, the sentinel's
offset is the offset of the first fragment of the trailing fragment
run. -/
theorem sentinel_last_unique (calls : List (Nat × List Char)) (T : Nat) :
    (read_thread_registrations calls T).chain.countP
        (fun e => e.name.isNone) = 1
    ∧ (read_thread_registrations calls T).chain.getLast? = some
        { name := none
          offset :=
            if (run_add_files (calls.map fun c => (c.1, some c.2))
                initAddFileState).multiHeader
            then (run_add_files (calls.map fun c => (c.1, some c.2))
                initAddFileState).multiHeaderStart
            else T }
    ∧ ((run_add_files (calls.map fun c => (c.1, some c.2))
          initAddFileState).multiHeader = true ↔
        ∃ c, calls.getLast? = some c ∧ is_multi_header c.2 = true)
    ∧ ((run_add_files (calls.map fun c => (c.1, some c.2))
          initAddFileState).multiHeader = true →
        ∃ pre p post, calls = pre ++ p :: post ∧
          is_multi_header p.2 = true ∧
          (∀ q ∈ post, is_multi_header q.2 = true) ∧
          (∀ c ∈ pre.getLast?, is_multi_header c.2 = false) ∧
          (run_add_files (calls.map fun c => (c.1, some c.2))
              initAddFileState).multiHeaderStart = p.1) := by
  have hsome := chain_names_some calls initAddFileState
    (by simp [initAddFileState])
  have hfinal : (read_thread_registrations calls T).chain
      = (run_add_files (calls.map fun c => (c.1, some c.2))
          initAddFileState).chain ++
        [{ name := none
           offset :=
             if (run_add_files (calls.map fun c => (c.1, some c.2))
                 initAddFileState).multiHeader
             then (run_add_files (calls.map fun c => (c.1, some c.2))
                 initAddFileState).multiHeaderStart
             else T }] := by
    rw [read_thread_registrations,
      add_file_nonfrag _ _ _ (fun n hn => by cases hn)]
  refine ⟨?_, ?_, ?_, multiHeaderStart_trailing calls⟩
  · rw [hfinal, List.countP_append]
    have h0 : (run_add_files (calls.map fun c => (c.1, some c.2))
        initAddFileState).chain.countP (fun e => e.name.isNone) = 0 := by
      rw [List.countP_eq_zero]
      intro e he
      have := hsome e he
      simp only [Option.isNone_iff_eq_none]
      intro hnone
      rw [hnone] at this
      cases this
    rw [h0]
    rfl
  · rw [hfinal, List.getLast?_concat]
  · rw [multiHeader_eq_last]
    cases hlast : calls.getLast? with
    | none => simp [initAddFileState]
    | some c => simp

theorem sentinel_last_unique_witness :
    (read_thread_registrations [(0, ['h'])] 1024).chain.countP
        (fun e => e.name.isNone) = 1
    ∧ (read_thread_registrations [(0, ['h'])] 1024).chain.getLast?
        = some { name := none, offset := 1024 } := by
  have h := sentinel_last_unique [(0, ['h'])] 1024
  refine ⟨h.1, ?_⟩
  have h2 := h.2.1
  simpa using h2

/-! ## Writer stage (`src/write.c`: the `main` write loop and
`write_blocks`) -/

/-- An encoded block as it arrives on `writeQ`: its sequence number, the
encoded bytes `output[0..outsize)`, and the two sizes the writer appends
to the stream-level index (`lzma_block_unpadded_size(&ib->block)` and
`ib->block.uncompressed_size`). -/
structure WBlock where
  seq : Nat
  out : List Nat
  unpadded : Nat
  uncomp : Nat
deriving DecidableEq, Repr

/-- The writer's state: the pending list `ibs` (blocks popped but not
yet written, head = most recently pushed), the next expected sequence
number `seq`, the bytes appended to the output file so far, the pairs
appended to the stream-level index so far, and the trace of blocks in
the order their bytes were written. -/
structure WriterState where
  pending : List WBlock
  nextSeq : Nat
  outfile : List Nat
  index : List (Nat × Nat)
  written : List WBlock
deriving DecidableEq, Repr

/-- The scan of `write_blocks`: find the first pending block whose `seq`
matches and unlink it (`prev->next = ib->next`), returning the block and
the remaining list. -/
def extract : List WBlock → Nat → Option (WBlock × List WBlock)
  | [], _ => none
  | ib :: rest, s =>
    if ib.seq = s then some (ib, rest)
    else
      match extract rest s with
      | none => none
      | some (x, rest') => some (x, ib :: rest')

theorem extract_some_spec :
    ∀ (l : List WBlock) (s : Nat) (x : WBlock) (rest : List WBlock),
      extract l s = some (x, rest) →
        x.seq = s ∧ rest.length + 1 = l.length := by
  intro l
  induction l with
  | nil =>
    intro s x rest h
    cases h
  | cons ib t ih =>
    intro s x rest h
    simp only [extract] at h
    by_cases hs : ib.seq = s
    · rw [if_pos hs] at h
      cases h
      exact ⟨hs, rfl⟩
    · rw [if_neg hs] at h
      cases hrec : extract t s with
      | none =>
        rw [hrec] at h
        cases h
      | some pr =>
        obtain ⟨y, rest'⟩ := pr
        rw [hrec] at h
        simp only [Option.some.injEq, Prod.mk.injEq] at h
        obtain ⟨hx, hr⟩ := h
        obtain ⟨h1, h2⟩ := ih s y rest' hrec
        constructor
        · rw [← hx]
          exact h1
        · rw [← hr]
          simp only [List.length_cons]
          omega

theorem extract_none_spec :
    ∀ (l : List WBlock) (s : Nat), extract l s = none →
      ∀ b ∈ l, b.seq ≠ s := by
  intro l
  induction l with
  | nil =>
    intro s _ b hb
    cases hb
  | cons ib t ih =>
    intro s h b hb
    simp only [extract] at h
    by_cases hs : ib.seq = s
    · rw [if_pos hs] at h
      cases h
    · rw [if_neg hs] at h
      rcases List.mem_cons.mp hb with h1 | h1
      · subst h1
        exact hs
      · cases hrec : extract t s with
        | none => exact ih s hrec b h1
        | some pr =>
          obtain ⟨y, rest'⟩ := pr
          rw [hrec] at h
          cases h

/-- The drain loop of `write_blocks` (`src/write.c`): as long as a
pending block with the next sequence number exists, write its output
bytes, append its sizes to the stream-level index, unlink it (the block
is recycled to the free queue), and advance `seq`. -/
def write_blocks (st : WriterState) : WriterState :=
  match h : extract st.pending st.nextSeq with
  | none => st
  | some (ib, rest) =>
    write_blocks
      { pending := rest
        nextSeq := st.nextSeq + 1
        outfile := st.outfile ++ ib.out
        index := st.index ++ [(ib.unpadded, ib.uncomp)]
        written := st.written ++ [ib] }
termination_by st.pending.length
decreasing_by
  have := (extract_some_spec _ _ _ _ h).2
  omega

/-- The writer's state before the first message: empty pending list,
`seq = 0`, nothing written. -/
def writer_init : WriterState :=
  { pending := [], nextSeq := 0, outfile := [], index := [], written := [] }

/-- The writer's main loop (`src/write.c` `main`): for each `DATA`
message popped from `writeQ`, push the block onto the pending list
(`ib->next = ibs; ibs = ib`) and drain. -/
def writer_loop (msgs : List WBlock) : WriterState :=
  msgs.foldl (fun st ib => write_blocks { st with pending := ib :: st.pending })
    writer_init

theorem write_blocks_of_none (st : WriterState)
    (h : extract st.pending st.nextSeq = none) :
    write_blocks st = st := by
  rw [write_blocks.eq_def]
  split
  · rfl
  · rename_i ib rest hsome
    rw [h] at hsome
    cases hsome

theorem write_blocks_of_some (st : WriterState) (ib : WBlock)
    (rest : List WBlock)
    (h : extract st.pending st.nextSeq = some (ib, rest)) :
    write_blocks st = write_blocks
      { pending := rest
        nextSeq := st.nextSeq + 1
        outfile := st.outfile ++ ib.out
        index := st.index ++ [(ib.unpadded, ib.uncomp)]
        written := st.written ++ [ib] } := by
  rw [write_blocks.eq_def]
  split
  · rename_i hnone
    rw [h] at hnone
    cases hnone
  · rename_i ib' rest' hsome
    rw [h] at hsome
    cases hsome
    rfl

theorem write_blocks_spec (n : Nat) :
    ∀ st : WriterState, st.pending.length ≤ n →
      st.written.map WBlock.seq = List.range st.written.length →
      st.nextSeq = st.written.length →
      st.index = st.written.map (fun b => (b.unpadded, b.uncomp)) →
      st.outfile = (st.written.map WBlock.out).flatten →
      (write_blocks st).written.map WBlock.seq
          = List.range (write_blocks st).written.length
      ∧ (write_blocks st).nextSeq = (write_blocks st).written.length
      ∧ (write_blocks st).index
          = (write_blocks st).written.map (fun b => (b.unpadded, b.uncomp))
      ∧ (write_blocks st).outfile
          = ((write_blocks st).written.map WBlock.out).flatten
      ∧ ∀ b ∈ (write_blocks st).pending, b.seq ≠ (write_blocks st).nextSeq := by
  induction n with
  | zero =>
    intro st hlen h1 h2 h3 h4
    have hp : st.pending = [] := List.length_eq_zero.mp (Nat.le_zero.mp hlen)
    have hext : extract st.pending st.nextSeq = none := by
      rw [hp]
      rfl
    rw [write_blocks_of_none st hext]
    exact ⟨h1, h2, h3, h4, by rw [hp]; intro b hb; cases hb⟩
  | succ n ih =>
    intro st hlen h1 h2 h3 h4
    cases hext : extract st.pending st.nextSeq with
    | none =>
      rw [write_blocks_of_none st hext]
      exact ⟨h1, h2, h3, h4, fun b hb => extract_none_spec _ _ hext b hb⟩
    | some pr =>
      obtain ⟨ib, rest⟩ := pr
      obtain ⟨hseq, hlen'⟩ := extract_some_spec _ _ _ _ hext
      rw [write_blocks_of_some st ib rest hext]
      apply ih
      · simp only
        omega
      · simp only [List.map_append, h1, List.length_append]
        rw [List.map_singleton, hseq, h2]
        simp [List.range_succ]
      · simp only [List.length_append, List.length_singleton]
        simp [h2]
      · simp [h3]
      · simp [h4]

/-- Claim C3: for every sequence of messages arriving on the write
queue, the blocks written to the output file appear in strictly
ascending `seq` order starting at 0 with no gaps, the stream-level index
receives the `(unpadded, uncompressed)` pair of each written block in
the same order, the output bytes are the concatenation of the written
blocks' outputs in that order, and after each drain no pending block
carries the next expected sequence number. -/
theorem writer_in_order (msgs : List WBlock) :
    (writer_loop msgs).written.map WBlock.seq
        = List.range (writer_loop msgs).written.length
    ∧ (writer_loop msgs).nextSeq = (writer_loop msgs).written.length
    ∧ (writer_loop msgs).index
        = (writer_loop msgs).written.map (fun b => (b.unpadded, b.uncomp))
    ∧ (writer_loop msgs).outfile
        = ((writer_loop msgs).written.map WBlock.out).flatten
    ∧ ∀ b ∈ (writer_loop msgs).pending,
        b.seq ≠ (writer_loop msgs).nextSeq := by
  induction msgs using List.reverseRecOn with
  | nil =>
    refine ⟨rfl, rfl, rfl, rfl, ?_⟩
    intro b hb
    cases hb
  | append_singleton l ib ih =>
    have hstep : writer_loop (l ++ [ib])
        = write_blocks { writer_loop l with
            pending := ib :: (writer_loop l).pending } := by
      simp [writer_loop, List.foldl_append]
    obtain ⟨h1, h2, h3, h4, _⟩ := ih
    rw [hstep]
    exact write_blocks_spec ((writer_loop l).pending.length + 1) _
      (le_refl _) h1 h2 h3 h4

/-! ## Reader stage (`src/write.c`: `tar_read` and the end-of-archive
flush of `read_thread`) -/

/-- A block as the reader fills it: the assigned sequence number and the
populated prefix `input[0..insize)` of its input buffer (`insize` is the
length of `data`; the untouched remainder of the fixed-capacity C buffer
carries no information). -/
structure RBlock where
  seq : Nat
  data : List Nat
deriving DecidableEq, Repr

/-- The reader's state: `gReadBlock`, `gBlockNum`, `gTotalRead`, the
remaining bytes of `gInFile`, and the blocks pushed so far to `gEncodeQ`
and back to `gReadQ` (the free queue) by the reader.  Popping a recycled
block from the free queue is modelled as producing a fresh block, since
`tar_read` resets `insize = 0` and overwrites `seq`, leaving nothing
observable of the block's previous life. -/
structure ReadState where
  readBlock : Option RBlock
  blockNum : Nat
  totalRead : Nat
  inFile : List Nat
  encQ : List RBlock
  freeQ : List RBlock
deriving DecidableEq, Repr

/-- The `insize` of the block currently being filled (0 when
`gReadBlock == NULL`, as `tar_read` resets `insize` right after
acquiring a block). -/
def cur_insize (s : ReadState) : Nat :=
  match s.readBlock with
  | some b => b.data.length
  | none => 0

/-- One invocation of the tar pull callback `tar_read` (`src/write.c`):
acquire a block if none is current (`insize = 0`, `seq = gBlockNum++`),
read up to `min(gBlockInSize - insize, CHUNKSIZE)` bytes from the input
file into `input + insize`, count them in `insize` and `gTotalRead`, and
post the block to `gEncodeQ` exactly when `insize` reaches
`gBlockInSize`.  Returns the new state and the `fread` count `rd` (a
short read happens exactly at end of input, so `rd` is the lesser of the
requested size and the bytes remaining). -/
def tar_read (blockInSize chunk : Nat) (s : ReadState) : ReadState × Nat :=
  let acq : RBlock × Nat :=
    match s.readBlock with
    | none => ({ seq := s.blockNum, data := [] }, s.blockNum + 1)
    | some b => (b, s.blockNum)
  let blk := acq.1
  let space := min (blockInSize - blk.data.length) chunk
  let rd := min space s.inFile.length
  let blk' : RBlock := { seq := blk.seq, data := blk.data ++ s.inFile.take rd }
  if blk'.data.length = blockInSize then
    ({ readBlock := none
       blockNum := acq.2
       totalRead := s.totalRead + rd
       inFile := s.inFile.drop rd
       encQ := s.encQ ++ [blk']
       freeQ := s.freeQ }, rd)
  else
    ({ readBlock := some blk'
       blockNum := acq.2
       totalRead := s.totalRead + rd
       inFile := s.inFile.drop rd
       encQ := s.encQ
       freeQ := s.freeQ }, rd)

/-- The end-of-archive flush of `read_thread` (`src/write.c`): if a
block is current, push it to `gEncodeQ` when `insize` is nonzero and
back to `gReadQ` (the free queue) otherwise. -/
def eof_flush (s : ReadState) : ReadState :=
  match s.readBlock with
  | none => s
  | some b =>
    if b.data.length ≠ 0 then
      { s with encQ := s.encQ ++ [b], readBlock := none }
    else
      { s with freeQ := s.freeQ ++ [b], readBlock := none }

theorem tar_read_inFile (bis chunk : Nat) (s : ReadState) :
    (tar_read bis chunk s).1.inFile = s.inFile.drop (tar_read bis chunk s).2
    ∧ (tar_read bis chunk s).2 ≤ s.inFile.length := by
  unfold tar_read
  cases s.readBlock with
  | none =>
    simp only
    split
    · exact ⟨rfl, Nat.min_le_right _ _⟩
    · exact ⟨rfl, Nat.min_le_right _ _⟩
  | some b =>
    simp only
    split
    · exact ⟨rfl, Nat.min_le_right _ _⟩
    · exact ⟨rfl, Nat.min_le_right _ _⟩

/-- The reader's byte-pull loop: the tar parser keeps invoking
`tar_read` until it returns 0 (end of input), upon which `read_thread`
performs the end-of-archive flush. -/
def read_loop (bis chunk : Nat) (s : ReadState) : ReadState :=
  if h : (tar_read bis chunk s).2 = 0 then eof_flush (tar_read bis chunk s).1
  else read_loop bis chunk (tar_read bis chunk s).1
termination_by s.inFile.length
decreasing_by
  obtain ⟨h1, h2⟩ := tar_read_inFile bis chunk s
  rw [h1]
  have hpos : 0 < (tar_read bis chunk s).2 := Nat.pos_of_ne_zero h
  rw [List.length_drop]
  omega

/-- The reader's state at startup, for a given input file content. -/
def init_read_state (input : List Nat) : ReadState :=
  { readBlock := none
    blockNum := 0
    totalRead := 0
    inFile := input
    encQ := []
    freeQ := [] }

/-- Claim C9: one `tar_read` invocation reads at most
`min(CHUNKSIZE, BlockInSize - insize)` bytes, `insize` never exceeds
`BlockInSize` (so the write stays within the input buffer), the return
value is the number of bytes appended, and the block is posted to the
encode queue exactly when `insize` reaches `BlockInSize`. -/
theorem tar_read_bounds (bis chunk : Nat) (s : ReadState) (hbis : 0 < bis)
    (hinv : ∀ b, s.readBlock = some b → b.data.length < bis) :
    (tar_read bis chunk s).2 ≤ min chunk (bis - cur_insize s)
    ∧ cur_insize s + (tar_read bis chunk s).2 ≤ bis
    ∧ (if cur_insize s + (tar_read bis chunk s).2 = bis
       then (∃ blk, (tar_read bis chunk s).1.encQ = s.encQ ++ [blk]
              ∧ blk.data.length = bis)
            ∧ (tar_read bis chunk s).1.readBlock = none
       else (tar_read bis chunk s).1.encQ = s.encQ
            ∧ ∃ b, (tar_read bis chunk s).1.readBlock = some b
                ∧ b.data.length = cur_insize s + (tar_read bis chunk s).2
                ∧ b.data.length < bis) := by
  cases hrb : s.readBlock with
  | none =>
    have hcur : cur_insize s = 0 := by
      unfold cur_insize
      rw [hrb]
    rw [hcur]
    simp only [tar_read, hrb, List.length_nil, List.nil_append, Nat.sub_zero,
      List.length_take]
    split
    · rename_i hfull
      refine ⟨?_, ?_, ?_⟩
      · simp only
        omega
      · simp only [Nat.zero_add]
        omega
      · simp only [Nat.zero_add]
        rw [if_pos (by omega)]
        refine ⟨⟨_, rfl, ?_⟩, trivial⟩
        simp only [List.length_take]
        omega
    · rename_i hfull
      refine ⟨?_, ?_, ?_⟩
      · simp only
        omega
      · simp only [Nat.zero_add]
        omega
      · simp only [Nat.zero_add]
        rw [if_neg (by omega)]
        refine ⟨trivial, _, rfl, ?_, ?_⟩
        · simp only [List.length_take]
          omega
        · simp only [List.length_take]
          omega
  | some b =>
    have hblt : b.data.length < bis := hinv b hrb
    have hcur : cur_insize s = b.data.length := by
      unfold cur_insize
      rw [hrb]
    rw [hcur]
    simp only [tar_read, hrb, List.length_append, List.length_take]
    split
    · rename_i hfull
      refine ⟨?_, ?_, ?_⟩
      · simp only
        omega
      · simp only
        omega
      · rw [if_pos (by omega)]
        refine ⟨⟨_, rfl, ?_⟩, rfl⟩
        simp only [List.length_append, List.length_take]
        omega
    · rename_i hfull
      refine ⟨?_, ?_, ?_⟩
      · simp only
        omega
      · simp only
        omega
      · rw [if_neg (by omega)]
        refine ⟨rfl, _, rfl, ?_, ?_⟩
        · simp only [List.length_append, List.length_take]
          omega
        · simp only [List.length_append, List.length_take]
          omega

/-- A concrete reader state used to witness `tar_read_bounds`. -/
def sampleReadState : ReadState :=
  { readBlock := some { seq := 0, data := [5] }
    blockNum := 1
    totalRead := 1
    inFile := [9, 9]
    encQ := []
    freeQ := [] }

theorem tar_read_bounds_witness :
    0 < 2 ∧ (tar_read 2 1 sampleReadState).2 ≤ min 1 (2 - cur_insize sampleReadState) := by
  refine ⟨by decide, ?_⟩
  exact (tar_read_bounds 2 1 sampleReadState (by decide)
    (fun b h => by cases h; decide)).1

theorem eof_flush_nonempty (s : ReadState)
    (h : ∀ b ∈ s.encQ, 0 < b.data.length) :
    ∀ b ∈ (eof_flush s).encQ, 0 < b.data.length := by
  intro b hb
  simp only [eof_flush] at hb
  cases hrb : s.readBlock with
  | none =>
    rw [hrb] at hb
    exact h b hb
  | some blk =>
    rw [hrb] at hb
    simp only at hb
    by_cases hne : blk.data.length ≠ 0
    · rw [if_pos hne] at hb
      simp only at hb
      rcases List.mem_append.mp hb with h1 | h1
      · exact h b h1
      · simp only [List.mem_singleton] at h1
        subst h1
        omega
    · rw [if_neg hne] at hb
      exact h b hb

theorem read_loop_nonempty (bis chunk : Nat) (hbis : 0 < bis) :
    ∀ (n : Nat) (s : ReadState), s.inFile.length ≤ n →
      (∀ b ∈ s.encQ, 0 < b.data.length) →
      (∀ b, s.readBlock = some b → b.data.length < bis) →
      ∀ b ∈ (read_loop bis chunk s).encQ, 0 < b.data.length := by
  have step : ∀ s : ReadState,
      (∀ b ∈ s.encQ, 0 < b.data.length) →
      (∀ b, s.readBlock = some b → b.data.length < bis) →
      (∀ b ∈ (tar_read bis chunk s).1.encQ, 0 < b.data.length)
      ∧ (∀ b, (tar_read bis chunk s).1.readBlock = some b →
          b.data.length < bis) := by
    intro s hq hrb
    obtain ⟨_, _, h3⟩ := tar_read_bounds bis chunk s hbis hrb
    by_cases hfull : cur_insize s + (tar_read bis chunk s).2 = bis
    · rw [if_pos hfull] at h3
      obtain ⟨⟨blk, hq', hblk⟩, hnone⟩ := h3
      constructor
      · intro b hb
        rw [hq'] at hb
        rcases List.mem_append.mp hb with h1 | h1
        · exact hq b h1
        · simp only [List.mem_singleton] at h1
          subst h1
          omega
      · intro b hb
        rw [hnone] at hb
        cases hb
    · rw [if_neg hfull] at h3
      obtain ⟨hq', b', hb', _, hlt⟩ := h3
      constructor
      · rw [hq']
        exact hq
      · intro b hb
        rw [hb'] at hb
        cases hb
        exact hlt
  intro n
  induction n with
  | zero =>
    intro s hlen hq hrb
    have hrd : (tar_read bis chunk s).2 = 0 := by
      have := (tar_read_inFile bis chunk s).2
      omega
    rw [read_loop.eq_def, dif_pos hrd]
    exact eof_flush_nonempty _ (step s hq hrb).1
  | succ n ih =>
    intro s hlen hq hrb
    rw [read_loop.eq_def]
    by_cases hrd : (tar_read bis chunk s).2 = 0
    · rw [dif_pos hrd]
      exact eof_flush_nonempty _ (step s hq hrb).1
    · rw [dif_neg hrd]
      obtain ⟨hdrop, hle⟩ := tar_read_inFile bis chunk s
      refine ih _ ?_ (step s hq hrb).1 (step s hq hrb).2
      rw [hdrop, List.length_drop]
      omega

/-- Claim C6: no block with `insize = 0` is ever posted to the encode
queue.  Every block in `encQ` after a full reader run is nonempty, and
the end-of-archive flush posts the current block to `encQ` iff its
`insize` is nonzero, returning it to the free queue otherwise. -/
theorem empty_block_never_encoded (bis chunk : Nat) (input : List Nat)
    (hbis : 0 < bis) :
    (∀ b ∈ (read_loop bis chunk (init_read_state input)).encQ,
        0 < b.data.length)
    ∧ (∀ s : ReadState, ∀ b, s.readBlock = some b →
        (0 < b.data.length →
          (eof_flush s).encQ = s.encQ ++ [b]
          ∧ (eof_flush s).freeQ = s.freeQ)
        ∧ (b.data.length = 0 →
          (eof_flush s).encQ = s.encQ
          ∧ (eof_flush s).freeQ = s.freeQ ++ [b])) := by
  constructor
  · exact read_loop_nonempty bis chunk hbis input.length (init_read_state input)
      (le_refl _) (fun b hb => by cases hb) (fun b hb => by cases hb)
  · intro s b hb
    constructor
    · intro hpos
      simp only [eof_flush, hb]
      rw [if_pos (by omega)]
      exact ⟨rfl, rfl⟩
    · intro hzero
      simp only [eof_flush, hb]
      rw [if_neg (by omega)]
      exact ⟨rfl, rfl⟩

theorem empty_block_never_encoded_witness :
    0 < 2
    ∧ ∀ b ∈ (read_loop 2 1 (init_read_state [7, 7, 7])).encQ,
        0 < b.data.length :=
  ⟨by decide, (empty_block_never_encoded 2 1 [7, 7, 7] (by decide)).1⟩

/-! ## Startup allocation (`src/write.c`: `main`, lines 87–102) -/

/-- An `io_block_t` as allocated at startup: the capacities of its two
`malloc`ed buffers. -/
structure io_block_alloc where
  inCap : Nat
  outCap : Nat
deriving DecidableEq, Repr

/-- The size `gBlockInSize = lzma_opts.dict_size * 2.0` (exact for any realistic
dictionary size, so modelled as `dictSize * 2`). -/
def gBlockInSize (dictSize : Nat) : Nat :=
  dictSize * 2

/-- The size `gBlockOutSize = lzma_block_buffer_bound(gBlockInSize)`; the codec's
bound function is an external collaborator, abstracted as `bound`. -/
def gBlockOutSize (bound : Nat → Nat) (dictSize : Nat) : Nat :=
  bound (gBlockInSize dictSize)

/-- The allocation loop of `main`: `gNumEncodeThreads * 2 + 4` blocks,
each with an input buffer of `gBlockInSize` bytes and an output buffer
of `gBlockOutSize` bytes, pushed to `gReadQ` (the free queue). -/
def startup_free_queue (numThreads dictSize : Nat) (bound : Nat → Nat) :
    List io_block_alloc :=
  (List.range (numThreads * 2 + 4)).map
    (fun _ => { inCap := gBlockInSize dictSize
                outCap := gBlockOutSize bound dictSize })

/-- Claim C7: exactly `2N + 4` block records are allocated into the free
queue, each with input capacity `2 × dict_size` and output capacity the
codec bound of that input capacity; the sizes are computed once from the
preset and shared by every block. -/
theorem startup_allocation (N dictSize : Nat) (bound : Nat → Nat) :
    (startup_free_queue N dictSize bound).length = 2 * N + 4
    ∧ (∀ blk ∈ startup_free_queue N dictSize bound,
        blk.inCap = 2 * dictSize ∧ blk.outCap = bound (2 * dictSize))
    ∧ gBlockInSize dictSize = 2 * dictSize
    ∧ gBlockOutSize bound dictSize = bound (gBlockInSize dictSize) := by
  refine ⟨?_, ?_, by simp [gBlockInSize, Nat.mul_comm], rfl⟩
  · simp [startup_free_queue]
    omega
  · intro blk hblk
    simp only [startup_free_queue, List.mem_map] at hblk
    obtain ⟨i, _, hblk⟩ := hblk
    rw [← hblk]
    exact ⟨by simp [gBlockInSize, Nat.mul_comm],
      by simp [gBlockOutSize, gBlockInSize, Nat.mul_comm]⟩

/-! ## File-index serialization through the `CHUNKSIZE` buffer
(`src/write.c`: `write_file_index`, `write_file_index_bytes`,
`write_file_index_buf`) -/

/-- The state of the buffered file-index writer: the filled prefix
`gFileIndexBuf[0..gFileIndexBufPos)` and the bytes delivered so far to
the streaming block encoder (`lzma_code` consumes every `avail_in` byte:
with `LZMA_RUN` the loop runs until `avail_in` is 0, with `LZMA_FINISH`
until `LZMA_STREAM_END`). -/
structure FIBuf where
  buf : List Nat
  encoded : List Nat
deriving DecidableEq, Repr

/-- The flush `write_file_index_buf` (either action): feed the
`gFileIndexBufPos` buffered bytes to the encoder and reset
`gFileIndexBufPos = 0`. -/
def write_file_index_buf (st : FIBuf) : FIBuf :=
  { buf := [], encoded := st.encoded ++ st.buf }

/-- The copy loop `write_file_index_bytes(size, buf)` (`src/write.c`): copy the data
into `gFileIndexBuf` in pieces of `min(size - bufpos, CHUNKSIZE -
gFileIndexBufPos)` bytes, flushing with `LZMA_RUN` whenever the buffer
becomes full.  `chunk` abbreviates the compile-time constant `CHUNKSIZE`
(defined in `pixz.h`, outside `src/`; only its positivity matters).  The
`len = 0` branch is unreachable whenever `gFileIndexBufPos < CHUNKSIZE`
(the invariant proved below); in C that situation would loop forever, so
the model's value there is irrelevant to any theorem. -/
def write_file_index_bytes (chunk : Nat) (data : List Nat) (st : FIBuf) :
    FIBuf :=
  if hd : data = [] then st
  else
    if hl : min data.length (chunk - st.buf.length) = 0 then st
    else
      write_file_index_bytes chunk
        (data.drop (min data.length (chunk - st.buf.length)))
        (if (st.buf ++ data.take (min data.length (chunk - st.buf.length))).length = chunk
         then write_file_index_buf
           { buf := st.buf ++ data.take (min data.length (chunk - st.buf.length))
             encoded := st.encoded }
         else
           { buf := st.buf ++ data.take (min data.length (chunk - st.buf.length))
             encoded := st.encoded })
termination_by data.length
decreasing_by
  rw [List.length_drop]
  have hpos : 0 < data.length := List.length_pos.mpr hd
  omega

theorem write_file_index_bytes_spec (chunk : Nat) (hc : 0 < chunk) :
    ∀ (n : Nat) (data : List Nat), data.length ≤ n → ∀ st : FIBuf,
      st.buf.length < chunk →
      (write_file_index_bytes chunk data st).encoded
          ++ (write_file_index_bytes chunk data st).buf
        = st.encoded ++ st.buf ++ data
      ∧ (write_file_index_bytes chunk data st).buf.length < chunk := by
  intro n
  induction n with
  | zero =>
    intro data hlen st hst
    have hd : data = [] := List.length_eq_zero.mp (Nat.le_zero.mp hlen)
    rw [write_file_index_bytes.eq_def, dif_pos hd, hd]
    simp
    exact hst
  | succ n ih =>
    intro data hlen st hst
    by_cases hd : data = []
    · rw [write_file_index_bytes.eq_def, dif_pos hd, hd]
      simp
      exact hst
    · have hdpos : 0 < data.length := List.length_pos.mpr hd
      have hlpos : 0 < min data.length (chunk - st.buf.length) := by
        omega
      rw [write_file_index_bytes.eq_def, dif_neg hd,
        dif_neg (Nat.ne_of_gt hlpos)]
      have htake : (data.take (min data.length (chunk - st.buf.length))).length
          = min data.length (chunk - st.buf.length) := by
        rw [List.length_take]
        omega
      by_cases hfull : (st.buf ++ data.take (min data.length
          (chunk - st.buf.length))).length = chunk
      · rw [if_pos hfull]
        obtain ⟨ihe, ihb⟩ := ih
          (data.drop (min data.length (chunk - st.buf.length)))
          (by rw [List.length_drop]; omega)
          (write_file_index_buf
            { buf := st.buf ++ data.take (min data.length (chunk - st.buf.length))
              encoded := st.encoded })
          (by simp [write_file_index_buf]; omega)
        refine ⟨?_, ihb⟩
        rw [ihe]
        simp [write_file_index_buf, List.append_assoc, List.take_append_drop]
      · rw [if_neg hfull]
        have hble : (st.buf ++ data.take (min data.length
            (chunk - st.buf.length))).length ≤ chunk := by
          rw [List.length_append, htake]
          omega
        obtain ⟨ihe, ihb⟩ := ih
          (data.drop (min data.length (chunk - st.buf.length)))
          (by rw [List.length_drop]; omega)
          { buf := st.buf ++ data.take (min data.length (chunk - st.buf.length))
            encoded := st.encoded }
          (by simp only; omega)
        refine ⟨?_, ihb⟩
        rw [ihe]
        simp [List.append_assoc, List.take_append_drop]

/-- Folding any sequence of byte-array writes keeps the buffer short and
loses no byte. -/
theorem write_file_index_bytes_fold (chunk : Nat) (hc : 0 < chunk)
    (writes : List (List Nat)) :
    ∀ st : FIBuf, st.buf.length < chunk →
      ((writes.foldl (fun st w => write_file_index_bytes chunk w st)
            st).encoded
          ++ (writes.foldl (fun st w => write_file_index_bytes chunk w st)
            st).buf
        = st.encoded ++ st.buf ++ writes.flatten)
      ∧ (writes.foldl (fun st w => write_file_index_bytes chunk w st)
          st).buf.length < chunk := by
  induction writes with
  | nil =>
    intro st hst
    simp
    exact hst
  | cons w rest ih =>
    intro st hst
    obtain ⟨he, hb⟩ := write_file_index_bytes_spec chunk hc w.length w
      (le_refl _) st hst
    obtain ⟨ihe, ihb⟩ := ih (write_file_index_bytes chunk w st) hb
    simp only [List.foldl_cons, List.flatten_cons]
    refine ⟨?_, ihb⟩
    rw [ihe, he]
    simp [List.append_assoc]

/-- Claim C10: the `CHUNKSIZE`-buffered streaming writer is transparent:
after any sequence of `write_file_index_bytes` calls followed by the
final `LZMA_FINISH` flush, the bytes delivered to the block encoder are
exactly the concatenation of the written arrays in order, and
`gFileIndexBufPos` stays strictly below `CHUNKSIZE` between calls (the
buffer is flushed exactly when it fills). -/
theorem file_index_writer_transparent (chunk : Nat) (hc : 0 < chunk)
    (writes : List (List Nat)) :
    (write_file_index_buf
        (writes.foldl (fun st w => write_file_index_bytes chunk w st)
          { buf := [], encoded := [] })).encoded = writes.flatten
    ∧ (writes.foldl (fun st w => write_file_index_bytes chunk w st)
        { buf := [], encoded := [] }).buf.length < chunk := by
  obtain ⟨he, hb⟩ := write_file_index_bytes_fold chunk hc writes
    { buf := [], encoded := [] } (by simpa using hc)
  refine ⟨?_, hb⟩
  simp only [write_file_index_buf]
  simpa using he

theorem file_index_writer_transparent_witness :
    0 < 4
    ∧ (write_file_index_buf
        ([[1, 2, 3], [4, 5, 6, 7], [8]].foldl
          (fun st w => write_file_index_bytes 4 w st)
          { buf := [], encoded := [] })).encoded
      = [[1, 2, 3], [4, 5, 6, 7], [8]].flatten :=
  ⟨by decide, (file_index_writer_transparent 4 (by decide)
    [[1, 2, 3], [4, 5, 6, 7], [8]]).1⟩

/-! ## File-index payload (`src/write.c`: `write_file_index`) -/

/-- Modelled from the spec: `xle64enc` (the little-endian 64-bit store
used for entry offsets) is defined in this repository outside `src/`;
the spec fixes its behaviour as "the 8-byte `offset` in little-endian",
i.e. byte `i` is `offset / 256^i mod 256`. -/
def xle64enc (n : Nat) : List Nat :=
  [n % 256, n / 256 % 256, n / 65536 % 256, n / 16777216 % 256,
   n / 4294967296 % 256, n / 1099511627776 % 256,
   n / 281474976710656 % 256, n / 72057594037927936 % 256]

/-- The name bytes of an entry: `f->name ? f->name : ""` as UTF-8-coded
naturals (names are NUL-free C strings, so one byte per `Char` below
128; the byte view of a `Char` is its code point for the ASCII names
used here, and byte-level faithfulness is preserved by keeping names
abstract). -/
def name_bytes (name : Option (List Char)) : List Nat :=
  match name with
  | some n => n.map Char.toNat
  | none => []

/-- The serializer `write_file_index` (`src/write.c`), the streaming part: for each
chain entry, write `strlen(name) + 1` bytes (the name and its
terminating NUL) and then the 8-byte little-endian offset through the
buffered writer, and finally flush with `LZMA_FINISH`.  `encoded` of the
result is the uncompressed payload delivered to the block encoder. -/
def write_file_index (chunk : Nat) (chain : List file_index_t) : FIBuf :=
  write_file_index_buf
    (chain.foldl
      (fun st f =>
        write_file_index_bytes chunk (xle64enc f.offset)
          (write_file_index_bytes chunk (name_bytes f.name ++ [0]) st))
      { buf := [], encoded := [] })

/-- One serialized record per entry. -/
def file_index_record (f : file_index_t) : List Nat :=
  name_bytes f.name ++ [0] ++ xle64enc f.offset

theorem write_file_index_fold (chunk : Nat) (hc : 0 < chunk)
    (chain : List file_index_t) :
    ∀ st : FIBuf, st.buf.length < chunk →
      ((chain.foldl
            (fun st f =>
              write_file_index_bytes chunk (xle64enc f.offset)
                (write_file_index_bytes chunk (name_bytes f.name ++ [0]) st))
            st).encoded
          ++ (chain.foldl
            (fun st f =>
              write_file_index_bytes chunk (xle64enc f.offset)
                (write_file_index_bytes chunk (name_bytes f.name ++ [0]) st))
            st).buf
        = st.encoded ++ st.buf ++ (chain.map file_index_record).flatten)
      ∧ (chain.foldl
          (fun st f =>
            write_file_index_bytes chunk (xle64enc f.offset)
              (write_file_index_bytes chunk (name_bytes f.name ++ [0]) st))
          st).buf.length < chunk := by
  induction chain with
  | nil =>
    intro st hst
    simp
    exact hst
  | cons f rest ih =>
    intro st hst
    obtain ⟨he1, hb1⟩ := write_file_index_bytes_spec chunk hc
      (name_bytes f.name ++ [0]).length (name_bytes f.name ++ [0])
      (le_refl _) st hst
    obtain ⟨he2, hb2⟩ := write_file_index_bytes_spec chunk hc
      (xle64enc f.offset).length (xle64enc f.offset) (le_refl _)
      (write_file_index_bytes chunk (name_bytes f.name ++ [0]) st) hb1
    obtain ⟨ihe, ihb⟩ := ih
      (write_file_index_bytes chunk (xle64enc f.offset)
        (write_file_index_bytes chunk (name_bytes f.name ++ [0]) st)) hb2
    simp only [List.foldl_cons, List.map_cons, List.flatten_cons]
    refine ⟨?_, ihb⟩
    rw [ihe, he2, he1]
    simp [file_index_record, List.append_assoc]

/-- Claim C4: the uncompressed payload of the file-index block is the
concatenation, in chain order, of one record per entry — the entry's
name bytes, one `0x00`, then the offset as 8 bytes little-endian; the
sentinel contributes a single `0x00` before its offset; the offset
encoding is 8 bytes long and decodes, little-endian, to the offset
modulo `2^64`. -/
theorem write_file_index_payload (chunk : Nat) (hc : 0 < chunk)
    (chain : List file_index_t) :
    (write_file_index chunk chain).encoded
        = (chain.map file_index_record).flatten
    ∧ (∀ f : file_index_t, f.name = none →
        file_index_record f = 0 :: xle64enc f.offset)
    ∧ (∀ off : Nat, (xle64enc off).length = 8
        ∧ (xle64enc off).foldr (fun b acc => b + 256 * acc) 0
            = off % 18446744073709551616) := by
  refine ⟨?_, ?_, ?_⟩
  · obtain ⟨he, _⟩ := write_file_index_fold chunk hc chain
      { buf := [], encoded := [] } (by simpa using hc)
    simp only [write_file_index, write_file_index_buf]
    simpa using he
  · intro f hf
    simp [file_index_record, name_bytes, hf]
  · intro off
    refine ⟨rfl, ?_⟩
    simp only [xle64enc, List.foldr]
    omega

theorem write_file_index_payload_witness :
    0 < 4
    ∧ (write_file_index 4
          [{ name := some ['f'], offset := 0 },
           { name := none, offset := 515 }]).encoded
        = ([{ name := some ['f'], offset := 0 },
            { name := none, offset := 515 }].map file_index_record).flatten :=
  ⟨by decide, (write_file_index_payload 4 (by decide)
    [{ name := some ['f'], offset := 0 },
     { name := none, offset := 515 }]).1⟩

/-! ## Lister (`src/list.c`) -/

/-- The format `printf("%9u")`: the decimal digits, left-padded with spaces to
width 9 (printf pads only when the number is shorter than the field). -/
def fmt9 (n : Nat) : List Char :=
  List.replicate (9 - (Nat.toDigits 10 n).length) ' ' ++ Nat.toDigits 10 n

/-- One output line per stream-index block:
`"%9u / %9u"` with the unpadded size then the uncompressed size. -/
def block_line (p : Nat × Nat) : List Char :=
  fmt9 p.1 ++ ' ' :: '/' :: ' ' :: fmt9 p.2

/-- Where `src/list.c` reads from, decided by the operand count left
after option parsing: none → standard input, one → that file, more →
usage error (`die`). -/
inductive InSource where
  | stdin : InSource
  | file : List Char → InSource
  | usage_error : InSource
deriving DecidableEq, Repr

def pick_input (operands : List (List Char)) : InSource :=
  match operands with
  | [] => InSource.stdin
  | [f] => InSource.file f
  | _ => InSource.usage_error

/-- The lines printed by `src/list.c` `main`: one `block_line` per block
of the decoded stream-level index in index order; then, when `-t` was
not given (`tar` still true) and `read_file_index` found a file index
(`dump = some d`, where `d` abstracts the `dump_file_index` output,
implemented outside `src/`), an empty line followed by the dump. -/
def list_output (tar : Bool) (blocks : List (Nat × Nat))
    (dump : Option (List (List Char))) : List (List Char) :=
  blocks.map block_line ++
    (match tar, dump with
     | true, some d => [] :: d
     | _, _ => [])

/-- Claim C8: the lister prints one line per stream-index block in index
order, each the two sizes right-aligned in 9 columns separated by
`" / "`; the blank line and file-index dump follow iff `-t` was absent
and a file index is present; with no FILE operand it reads standard
input. -/
theorem lister_output_correct (tar : Bool) (blocks : List (Nat × Nat))
    (dump : Option (List (List Char))) :
    ((tar = true ∧ ∃ d, dump = some d ∧
        list_output tar blocks dump = blocks.map block_line ++ [] :: d)
      ∨ ((tar = false ∨ dump = none) ∧
        list_output tar blocks dump = blocks.map block_line))
    ∧ (∀ n : Nat, (fmt9 n).length = max 9 (Nat.toDigits 10 n).length
        ∧ ∃ pad, fmt9 n = pad ++ Nat.toDigits 10 n ∧ ∀ ch ∈ pad, ch = ' ')
    ∧ (∀ u c : Nat, block_line (u, c) = fmt9 u ++ ' ' :: '/' :: ' ' :: fmt9 c)
    ∧ pick_input [] = InSource.stdin
    ∧ (∀ f, pick_input [f] = InSource.file f) := by
  refine ⟨?_, ?_, fun u c => rfl, rfl, fun f => rfl⟩
  · cases tar with
    | true =>
      cases dump with
      | some d => exact Or.inl ⟨rfl, d, rfl, rfl⟩
      | none => exact Or.inr ⟨Or.inr rfl, by simp [list_output]⟩
    | false => exact Or.inr ⟨Or.inl rfl, by simp [list_output]⟩
  · intro n
    constructor
    · simp only [fmt9, List.length_append, List.length_replicate]
      omega
    · exact ⟨List.replicate (9 - (Nat.toDigits 10 n).length) ' ', rfl,
        fun ch hch => List.eq_of_mem_replicate hch⟩

end Pixz
